import Mathlib

/-!
Verification of the AgentPress thread manager
(`backend/core/agentpress/thread_manager.py`).

Shallow embedding of the data model and the core operations:
the tool-call/result consistency filter (`_filter_tool_results_for_bedrock`,
with `_is_cached_block` and `_contains_embedded_tool_result`), the run
pipeline (`_execute_run` with its token-budget fast path), and the
auto-continue loop (`_auto_continue_generator` with
`_check_auto_continue_trigger`).

Python dictionaries representing chat messages are embedded as a structure
holding exactly the fields the thread manager reads: `role`, `content`,
`tool_call_id` and `tool_calls`; a missing key is `none` / the Python
`get` default.  The seven regular-expression signatures of
`_contains_embedded_tool_result` are abstracted into a parameter
`sig : String → Bool` applied to the flattened message text, after the
concrete guards the source performs first (user role, cached block,
blank text); every theorem below is proved for an arbitrary `sig`.
-/

namespace Suna

/-- One entry of an assistant message's `tool_calls` list: the filter reads
`tc.get('id')` (and logs `tc.get('function').get('name')`, which carries no
semantics here). -/
structure ToolCall where
  id : Option String
  fname : Option String := none
deriving DecidableEq

/-- One element of a block-list content.  `dict` is a Python dict block with
its `type`, `text` and truthy-`cache_control` fields; `other` is any
non-dict element, which every loop in the source skips. -/
inductive Block where
  | dict (btype : Option String) (text : Option String) (cacheControl : Bool)
  | other
deriving DecidableEq

/-- Message content: a plain string, a list of blocks, or any other value
(kept as its `str(...)` rendering, which is all the source ever uses). -/
inductive MsgContent where
  | str (s : String)
  | blocks (bs : List Block)
  | other (s : String)
deriving DecidableEq

/-- A chat message as read by the thread manager.  Defaults are the
`dict.get` defaults used in the source (`''` for content, `[]` for
`tool_calls`, `None` otherwise). -/
structure Msg where
  role : Option String := none
  content : MsgContent := .str ""
  tool_call_id : Option String := none
  tool_calls : List ToolCall := []
deriving DecidableEq

/-- `_is_cached_block`: content is a list and some dict block has a truthy
`cache_control`. -/
def isCachedBlock (m : Msg) : Bool :=
  match m.content with
  | .blocks bs =>
      bs.any fun b =>
        match b with
        | .dict _ _ cc => cc
        | .other => false
  | _ => false

/-- The text-flattening step of `_contains_embedded_tool_result`: block
lists contribute the `text` of their `type == 'text'` dict blocks joined
with spaces; strings pass through; anything else is its string rendering. -/
def contentText (c : MsgContent) : String :=
  match c with
  | .str s => s
  | .blocks bs =>
      String.intercalate " "
        (bs.filterMap fun b =>
          match b with
          | .dict bt tx _ => if bt = some "text" then some (tx.getD "") else none
          | .other => none)
  | .other s => s

/-- `_contains_embedded_tool_result`: only user messages, never cached
blocks, never blank text; the seven regex signatures on the flattened text
are the abstract parameter `sig`. -/
def containsEmbeddedToolResult (sig : String → Bool) (m : Msg) : Bool :=
  if m.role = some "user" then
    if isCachedBlock m then false
    else
      let t := contentText m.content
      if t.data.all Char.isWhitespace then false else sig t
  else false

/-- Python truthiness for an optional string (`None` and `''` are falsy). -/
def truthyStr : Option String → Bool
  | some s => s ≠ ""
  | none => false

/-- `{tc.get('id') for tc in tool_calls if tc.get('id')}`: the truthy ids of
an assistant message's tool calls. -/
def truthyIds (tcs : List ToolCall) : List String :=
  tcs.filterMap fun tc =>
    match tc.id with
    | some s => if s = "" then none else some s
    | none => none

/-- The mutable scan state of `_filter_tool_results_for_bedrock`:
`last_assistant_tool_calls` and `pending_tool_call_ids`. -/
structure FilterState where
  last : List ToolCall
  pending : List String
deriving DecidableEq

/-- The single forward pass of `_filter_tool_results_for_bedrock`
(lines 481-543), returning the kept messages together with the final scan
state.  Branches mirror the source: assistant messages always kept and
resetting/loading the pending set; tool messages kept only when their id is
truthy, pending and matched in `last_assistant_tool_calls` (discarding the
id); user messages kept when cached, dropped when they carry an embedded
tool result (both sub-branches of the source drop), kept otherwise; every
other role kept unchanged. -/
def filterPassS (sig : String → Bool) : List Msg → FilterState → List Msg × FilterState
  | [], s => ([], s)
  | m :: rest, s =>
    if m.role = some "assistant" then
      if m.tool_calls = [] then
        let r := filterPassS sig rest ⟨[], []⟩
        (m :: r.1, r.2)
      else
        let r := filterPassS sig rest ⟨m.tool_calls, truthyIds m.tool_calls⟩
        (m :: r.1, r.2)
    else if m.role = some "tool" then
      match m.tool_call_id with
      | some id =>
        if id ≠ "" ∧ id ∈ s.pending ∧ ∃ tc ∈ s.last, tc.id = some id then
          let r := filterPassS sig rest ⟨s.last, s.pending.filter (fun x => decide (x ≠ id))⟩
          (m :: r.1, r.2)
        else
          filterPassS sig rest s
      | none => filterPassS sig rest s
    else if m.role = some "user" then
      if isCachedBlock m then
        let r := filterPassS sig rest s
        (m :: r.1, r.2)
      else if containsEmbeddedToolResult sig m then
        filterPassS sig rest s
      else
        let r := filterPassS sig rest s
        (m :: r.1, r.2)
    else
      let r := filterPassS sig rest s
      (m :: r.1, r.2)

/-- The kept messages of one pass, from the initial empty state. -/
def filterPass (sig : String → Bool) (messages : List Msg) : List Msg :=
  (filterPassS sig messages ⟨[], []⟩).1

/-- `_filter_tool_results_for_bedrock` (lines 473-565): the forward pass
followed by the emergency safety check, which, when every non-system
message was removed from a non-empty input, appends the most recent
user message of the original input. -/
def filterToolResults (sig : String → Bool) (messages : List Msg) : List Msg :=
  let filtered := filterPass sig messages
  if (filtered.filter fun m => decide (¬ m.role = some "system")).length = 0 ∧
      0 < messages.length then
    match messages.reverse.find? (fun m => decide (m.role = some "user")) with
    | some u => filtered ++ [u]
    | none => filtered
  else
    filtered

/-- Observer for claim C1: scanning a message list, tracking the truthy
call-id set of the most recent assistant message that issued tool calls
(`none` initially and after an assistant message without calls), every
tool-role message must carry an id drawn from that set. -/
def toolPairingOk : List Msg → Option (List String) → Bool
  | [], _ => true
  | m :: rest, ids? =>
    if m.role = some "assistant" then
      if m.tool_calls = [] then toolPairingOk rest none
      else toolPairingOk rest (some (truthyIds m.tool_calls))
    else if m.role = some "tool" then
      (match ids?, m.tool_call_id with
       | some ids, some id => decide (id ∈ ids)
       | _, _ => false) && toolPairingOk rest ids?
    else
      toolPairingOk rest ids?

/-- The scan invariant behind claim C1: every id still pending is drawn
from the observer's current call-id set. -/
lemma toolPairingOk_filterPassS (sig : String → Bool) (msgs : List Msg) :
    ∀ (s : FilterState) (ids? : Option (List String)),
      (∀ id ∈ s.pending, ∃ ids, ids? = some ids ∧ id ∈ ids) →
      toolPairingOk (filterPassS sig msgs s).1 ids? = true := by
  induction msgs with
  | nil => intro s ids? _; simp [filterPassS, toolPairingOk]
  | cons m rest ih =>
    intro s ids? hrel
    by_cases ha : m.role = some "assistant"
    · by_cases hc : m.tool_calls = []
      · simp [filterPassS, ha, hc, toolPairingOk]
        exact ih ⟨[], []⟩ none (fun id hid => absurd hid (List.not_mem_nil id))
      · simp [filterPassS, ha, hc, toolPairingOk]
        exact ih ⟨m.tool_calls, truthyIds m.tool_calls⟩ (some (truthyIds m.tool_calls))
          (fun id hid => ⟨truthyIds m.tool_calls, rfl, hid⟩)
    · by_cases ht : m.role = some "tool"
      · rcases hid : m.tool_call_id with _ | id
        · simp [filterPassS, ha, ht, hid]
          exact ih s ids? hrel
        · by_cases hkeep : id ≠ "" ∧ id ∈ s.pending ∧ ∃ tc ∈ s.last, tc.id = some id
          · obtain ⟨ids, hids, hmem⟩ := hrel id hkeep.2.1
            subst hids
            simp [filterPassS, ha, ht, hid, hkeep, toolPairingOk, hmem]
            refine ih _ (some ids) ?_
            intro id' hid'
            obtain ⟨ids1, heq, hm1⟩ := hrel id' (List.mem_of_mem_filter hid')
            obtain rfl : ids = ids1 := Option.some.inj heq
            exact ⟨ids, rfl, hm1⟩
          · simp [filterPassS, ha, ht, hid, hkeep]
            exact ih s ids? hrel
      · by_cases hu : m.role = some "user"
        · by_cases hcb : isCachedBlock m = true
          · simp [filterPassS, ha, ht, hu, hcb, toolPairingOk]
            exact ih s ids? hrel
          · by_cases he : containsEmbeddedToolResult sig m = true
            · simp [filterPassS, ha, ht, hu, hcb, he]
              exact ih s ids? hrel
            · simp [filterPassS, ha, ht, hu, hcb, he, toolPairingOk]
              exact ih s ids? hrel
        · simp [filterPassS, ha, ht, hu, toolPairingOk]
          exact ih s ids? hrel

/-- Appending a user-role message never breaks the pairing observer. -/
lemma toolPairingOk_append_user {u : Msg} (hu : u.role = some "user") :
    ∀ (xs : List Msg) (ids? : Option (List String)),
      toolPairingOk xs ids? = true → toolPairingOk (xs ++ [u]) ids? = true := by
  intro xs
  induction xs with
  | nil =>
    intro ids? _
    simp [toolPairingOk, hu]
  | cons m rest ih =>
    intro ids? hok
    by_cases ha : m.role = some "assistant"
    · by_cases hc : m.tool_calls = []
      · simp [toolPairingOk, ha, hc] at hok ⊢
        exact ih none hok
      · simp [toolPairingOk, ha, hc] at hok ⊢
        exact ih (some (truthyIds m.tool_calls)) hok
    · by_cases ht : m.role = some "tool"
      · simp [toolPairingOk, ha, ht] at hok ⊢
        exact ⟨hok.1, ih ids? hok.2⟩
      · simp [toolPairingOk, ha, ht] at hok ⊢
        exact ih ids? hok

/-- C1: for every input message sequence (and every signature heuristic),
the Bedrock consistency filter never outputs a tool-role message whose
`tool_call_id` is absent from the truthy call-id set of the most recent
preceding assistant message that issued tool calls, the tracked set being
reset by any later assistant message without calls. -/
theorem C1_filter_never_emits_unmatched_tool_result (sig : String → Bool)
    (messages : List Msg) :
    toolPairingOk (filterToolResults sig messages) none = true := by
  have hpass := toolPairingOk_filterPassS sig messages ⟨[], []⟩ none
    (fun id hid => absurd hid (List.not_mem_nil id))
  simp only [filterToolResults]
  rcases hfind : messages.reverse.find? (fun m => decide (m.role = some "user")) with _ | u
  · simp only [hfind]
    split_ifs <;> simpa [filterPass] using hpass
  · have hp := List.find?_some hfind
    simp only [decide_eq_true_eq] at hp
    simp only [hfind]
    split_ifs with h
    · simpa [filterPass] using toolPairingOk_append_user hp _ none hpass
    · simpa [filterPass] using hpass

/-- A user message that the per-message rules keep (cached, or free of an
embedded tool-result signature) survives the pass from any scan state. -/
lemma mem_filterPassS_of_user_keep (sig : String → Bool) {m : Msg}
    (hrole : m.role = some "user")
    (hkeep : isCachedBlock m = true ∨ containsEmbeddedToolResult sig m = false) :
    ∀ (msgs : List Msg) (s : FilterState), m ∈ msgs → m ∈ (filterPassS sig msgs s).1 := by
  intro msgs
  induction msgs with
  | nil => intro s h; exact absurd h (List.not_mem_nil m)
  | cons hd rest ih =>
    intro s hm
    rcases List.mem_cons.mp hm with rfl | hm'
    · have hna : ¬ m.role = some "assistant" := by simp [hrole]
      have hnt : ¬ m.role = some "tool" := by simp [hrole]
      rcases hkeep with hcb | he
      · simp [filterPassS, hna, hnt, hrole, hcb]
      · by_cases hcb : isCachedBlock m = true
        · simp [filterPassS, hna, hnt, hrole, hcb]
        · simp [filterPassS, hna, hnt, hrole, hcb, he]
    · by_cases ha : hd.role = some "assistant"
      · by_cases hc : hd.tool_calls = []
        · simp [filterPassS, ha, hc]
          exact Or.inr (ih _ hm')
        · simp [filterPassS, ha, hc]
          exact Or.inr (ih _ hm')
      · by_cases ht : hd.role = some "tool"
        · rcases hid : hd.tool_call_id with _ | id
          · simp [filterPassS, ha, ht, hid]
            exact ih _ hm'
          · by_cases hk : id ≠ "" ∧ id ∈ s.pending ∧ ∃ tc ∈ s.last, tc.id = some id
            · simp [filterPassS, ha, ht, hid, hk]
              exact Or.inr (ih _ hm')
            · simp [filterPassS, ha, ht, hid, hk]
              exact ih _ hm'
        · by_cases hu : hd.role = some "user"
          · by_cases hcb : isCachedBlock hd = true
            · simp [filterPassS, ha, ht, hu, hcb]
              exact Or.inr (ih _ hm')
            · by_cases he : containsEmbeddedToolResult sig hd = true
              · simp [filterPassS, ha, ht, hu, hcb, he]
                exact ih _ hm'
              · simp [filterPassS, ha, ht, hu, hcb, he]
                exact Or.inr (ih _ hm')
          · simp [filterPassS, ha, ht, hu]
            exact Or.inr (ih _ hm')

/-- The forward pass only drops messages: its output is a sublist of the
input, in the input's order. -/
lemma filterPassS_sublist (sig : String → Bool) :
    ∀ (msgs : List Msg) (s : FilterState), List.Sublist (filterPassS sig msgs s).1 msgs := by
  intro msgs
  induction msgs with
  | nil => intro s; simp [filterPassS]
  | cons hd rest ih =>
    intro s
    by_cases ha : hd.role = some "assistant"
    · by_cases hc : hd.tool_calls = []
      · simpa [filterPassS, ha, hc] using (ih _).cons₂ hd
      · simpa [filterPassS, ha, hc] using (ih _).cons₂ hd
    · by_cases ht : hd.role = some "tool"
      · rcases hid : hd.tool_call_id with _ | id
        · simpa [filterPassS, ha, ht, hid] using (ih s).cons hd
        · by_cases hk : id ≠ "" ∧ id ∈ s.pending ∧ ∃ tc ∈ s.last, tc.id = some id
          · simpa [filterPassS, ha, ht, hid, hk] using (ih _).cons₂ hd
          · simpa [filterPassS, ha, ht, hid, hk] using (ih s).cons hd
      · by_cases hu : hd.role = some "user"
        · by_cases hcb : isCachedBlock hd = true
          · simpa [filterPassS, ha, ht, hu, hcb] using (ih s).cons₂ hd
          · by_cases he : containsEmbeddedToolResult sig hd = true
            · simpa [filterPassS, ha, ht, hu, hcb, he] using (ih s).cons hd
            · simpa [filterPassS, ha, ht, hu, hcb, he] using (ih s).cons₂ hd
        · simpa [filterPassS, ha, ht, hu] using (ih s).cons₂ hd

/-- C2: on a non-empty input whose per-message filtering removes every
non-system message, the emergency fallback keeps the most recent user
message of the original input in the output. -/
theorem C2_emergency_keeps_last_user (sig : String → Bool)
    (messages : List Msg) (u : Msg)
    (hne : messages ≠ [])
    (hall : (filterPass sig messages).filter
      (fun m => decide (¬ m.role = some "system")) = [])
    (hfind : messages.reverse.find? (fun m => decide (m.role = some "user")) = some u) :
    u ∈ filterToolResults sig messages := by
  have hcond : ((filterPass sig messages).filter
      (fun m => decide (¬ m.role = some "system"))).length = 0 ∧ 0 < messages.length :=
    ⟨by rw [hall]; rfl, List.length_pos.mpr hne⟩
  simp only [filterToolResults]
  rw [if_pos hcond, hfind]
  exact List.mem_append_right _ (List.mem_singleton.mpr rfl)

/-- Witness inputs: a user message whose entire text is one embedded
tool-result signature, and the signature predicate that flags it. -/
def sigMark : String → Bool := fun s => decide (s = "TOOLRESULT")

def userEmbMsg : Msg := { role := some "user", content := .str "TOOLRESULT" }

theorem C2_emergency_keeps_last_user_witness :
    userEmbMsg ∈ filterToolResults sigMark [userEmbMsg] :=
  C2_emergency_keeps_last_user sigMark [userEmbMsg] userEmbMsg
    (by decide) (by decide) (by decide)

/-- The forward pass distributes over concatenation, threading the scan
state. -/
lemma filterPassS_append (sig : String → Bool) :
    ∀ (xs ys : List Msg) (s : FilterState),
      filterPassS sig (xs ++ ys) s =
        ((filterPassS sig xs s).1 ++ (filterPassS sig ys (filterPassS sig xs s).2).1,
          (filterPassS sig ys (filterPassS sig xs s).2).2) := by
  intro xs
  induction xs with
  | nil => intro ys s; simp [filterPassS]
  | cons hd rest ih =>
    intro ys s
    by_cases ha : hd.role = some "assistant"
    · by_cases hc : hd.tool_calls = []
      · simp [filterPassS, ha, hc, ih]
      · simp [filterPassS, ha, hc, ih]
    · by_cases ht : hd.role = some "tool"
      · rcases hid : hd.tool_call_id with _ | id
        · simp [filterPassS, ha, ht, hid, ih]
        · by_cases hk : id ≠ "" ∧ id ∈ s.pending ∧ ∃ tc ∈ s.last, tc.id = some id
          · simp [filterPassS, ha, ht, hid, hk, ih]
          · simp [filterPassS, ha, ht, hid, hk, ih]
      · by_cases hu : hd.role = some "user"
        · by_cases hcb : isCachedBlock hd = true
          · simp [filterPassS, ha, ht, hu, hcb, ih]
          · by_cases he : containsEmbeddedToolResult sig hd = true
            · simp [filterPassS, ha, ht, hu, hcb, he, ih]
            · simp [filterPassS, ha, ht, hu, hcb, he, ih]
        · simp [filterPassS, ha, ht, hu, ih]

/-- Re-running the forward pass on its own output, from the same starting
state, changes nothing: every per-message verdict is reproduced. -/
lemma filterPassS_idem (sig : String → Bool) :
    ∀ (msgs : List Msg) (s : FilterState),
      (filterPassS sig (filterPassS sig msgs s).1 s).1 = (filterPassS sig msgs s).1 := by
  intro msgs
  induction msgs with
  | nil => intro s; simp [filterPassS]
  | cons hd rest ih =>
    intro s
    by_cases ha : hd.role = some "assistant"
    · by_cases hc : hd.tool_calls = []
      · simp [filterPassS, ha, hc, ih]
      · simp [filterPassS, ha, hc, ih]
    · by_cases ht : hd.role = some "tool"
      · rcases hid : hd.tool_call_id with _ | id
        · simp [filterPassS, ha, ht, hid, ih]
        · by_cases hk : id ≠ "" ∧ id ∈ s.pending ∧ ∃ tc ∈ s.last, tc.id = some id
          · simp [filterPassS, ha, ht, hid, hk, ih]
          · simp [filterPassS, ha, ht, hid, hk, ih]
      · by_cases hu : hd.role = some "user"
        · by_cases hcb : isCachedBlock hd = true
          · simp [filterPassS, ha, ht, hu, hcb, ih]
          · by_cases he : containsEmbeddedToolResult sig hd = true
            · simp [filterPassS, ha, ht, hu, hcb, he, ih]
            · simp [filterPassS, ha, ht, hu, hcb, he, ih]
        · simp [filterPassS, ha, ht, hu, ih]

/-- System-role messages are kept unchanged and leave the scan state
untouched. -/
lemma filterPassS_all_system (sig : String → Bool) :
    ∀ (msgs : List Msg) (s : FilterState), (∀ m ∈ msgs, m.role = some "system") →
      filterPassS sig msgs s = (msgs, s) := by
  intro msgs
  induction msgs with
  | nil => intro s _; simp [filterPassS]
  | cons hd rest ih =>
    intro s hall
    have hs : hd.role = some "system" := hall hd (List.mem_cons_self hd rest)
    have hrest := fun m hm => hall m (List.mem_cons_of_mem hd hm)
    simp [filterPassS, hs, ih s hrest]

/-- A non-cached user message carrying an embedded tool-result signature is
dropped from any scan state. -/
lemma filterPassS_user_dropped (sig : String → Bool) {u : Msg}
    (hrole : u.role = some "user") (hcb : isCachedBlock u = false)
    (he : containsEmbeddedToolResult sig u = true) (s : FilterState) :
    filterPassS sig [u] s = ([], s) := by
  have hna : ¬ u.role = some "assistant" := by simp [hrole]
  have hnt : ¬ u.role = some "tool" := by simp [hrole]
  simp [filterPassS, hna, hnt, hrole, hcb, he]

lemma all_system_of_filter_nil {l : List Msg}
    (h : l.filter (fun m => decide (¬ m.role = some "system")) = []) :
    ∀ m ∈ l, m.role = some "system" := by
  intro m hm
  by_contra hne
  have hmem : m ∈ l.filter (fun m => decide (¬ m.role = some "system")) :=
    List.mem_filter.mpr ⟨hm, by simpa using hne⟩
  rw [h] at hmem
  exact absurd hmem (List.not_mem_nil m)

/-- Idempotence of the full filter, emergency fallback included. -/
lemma filterToolResults_idem (sig : String → Bool) (messages : List Msg) :
    filterToolResults sig (filterToolResults sig messages) =
      filterToolResults sig messages := by
  set P := filterPass sig messages with hP
  have hpassP : filterPass sig P = P := by
    rw [hP]
    exact filterPassS_idem sig messages ⟨[], []⟩
  by_cases hcond : (P.filter fun m => decide (¬ m.role = some "system")).length = 0 ∧
      0 < messages.length
  · have hallP : ∀ m ∈ P, m.role = some "system" :=
      all_system_of_filter_nil (List.length_eq_zero.mp hcond.1)
    rcases hfind : messages.reverse.find? (fun m => decide (m.role = some "user")) with _ | u
    · have hF : filterToolResults sig messages = P := by
        simp only [filterToolResults]
        rw [if_pos hcond, hfind]
      rw [hF]
      by_cases hPnil : P = []
      · rw [hPnil]
        simp [filterToolResults, filterPass, filterPassS]
      · have hcondP : ((filterPass sig P).filter
            fun m => decide (¬ m.role = some "system")).length = 0 ∧ 0 < P.length :=
          ⟨by rw [hpassP]; exact hcond.1, List.length_pos.mpr hPnil⟩
        have hfindP : P.reverse.find? (fun m => decide (m.role = some "user")) = none := by
          rw [List.find?_eq_none]
          intro m hm
          have := hallP m (List.mem_reverse.mp hm)
          simp [this]
        simp only [filterToolResults]
        rw [if_pos hcondP, hfindP]
        exact hpassP
    · have hF : filterToolResults sig messages = P ++ [u] := by
        simp only [filterToolResults]
        rw [if_pos hcond, hfind]
      have humem : u ∈ messages := List.mem_reverse.mp (List.mem_of_find?_eq_some hfind)
      have hurole : u.role = some "user" := by
        have := List.find?_some hfind
        simpa using this
      have hdrop : isCachedBlock u = false ∧ containsEmbeddedToolResult sig u = true := by
        by_contra hcon
        have hkeep : isCachedBlock u = true ∨ containsEmbeddedToolResult sig u = false := by
          rcases Bool.eq_false_or_eq_true (isCachedBlock u) with hcb | hcb
          · exact Or.inl hcb
          · rcases Bool.eq_false_or_eq_true (containsEmbeddedToolResult sig u) with he | he
            · exact absurd ⟨hcb, he⟩ hcon
            · exact Or.inr he
        have hin : u ∈ P := mem_filterPassS_of_user_keep sig hurole hkeep messages ⟨[], []⟩ humem
        have := hallP u hin
        rw [hurole] at this
        simp at this
      have hsysP := filterPassS_all_system sig P ⟨[], []⟩ hallP
      have hpassPu : filterPass sig (P ++ [u]) = P := by
        show (filterPassS sig (P ++ [u]) ⟨[], []⟩).1 = P
        rw [filterPassS_append sig P [u] ⟨[], []⟩, hsysP]
        rw [filterPassS_user_dropped sig hurole hdrop.1 hdrop.2 ⟨[], []⟩]
        simp
      have hcondPu : ((filterPass sig (P ++ [u])).filter
          fun m => decide (¬ m.role = some "system")).length = 0 ∧ 0 < (P ++ [u]).length := by
        constructor
        · rw [hpassPu]; exact hcond.1
        · simp
      have hfindPu : (P ++ [u]).reverse.find? (fun m => decide (m.role = some "user")) =
          some u := by
        rw [List.reverse_append]
        simp only [List.reverse_singleton, List.singleton_append]
        exact List.find?_cons_of_pos _ (by simp [hurole])
      rw [hF]
      simp only [filterToolResults]
      rw [if_pos hcondPu, hfindPu, hpassPu]
  · have hF : filterToolResults sig messages = P := by
      simp only [filterToolResults]
      rw [if_neg hcond]
    rw [hF]
    rcases Classical.not_and_iff_or_not_not.mp hcond with hA | hB
    · have hcondP : ¬ (((filterPass sig P).filter
          fun m => decide (¬ m.role = some "system")).length = 0 ∧ 0 < P.length) := by
        intro hc
        rw [hpassP] at hc
        exact hA hc.1
      simp only [filterToolResults]
      rw [if_neg hcondP]
      exact hpassP
    · have hmnil : messages = [] := by
        cases messages with
        | nil => rfl
        | cons a l => exact absurd (by simp) hB
      rw [hP, hmnil]
      simp [filterToolResults, filterPass, filterPassS]

/-- C9 (amended): the consistency filter is idempotent, and its forward
pass preserves relative order (a sublist of the input); the full filter's
output is either exactly the pass output or the pass output with the most
recent original user message appended at the end — the appended message may
therefore appear out of its original order. -/
theorem C9_filter_idempotent_and_order (sig : String → Bool) (messages : List Msg) :
    filterToolResults sig (filterToolResults sig messages) = filterToolResults sig messages
    ∧ List.Sublist (filterPass sig messages) messages
    ∧ (filterToolResults sig messages = filterPass sig messages
        ∨ ∃ u ∈ messages, u.role = some "user"
            ∧ filterToolResults sig messages = filterPass sig messages ++ [u]) := by
  refine ⟨filterToolResults_idem sig messages,
    filterPassS_sublist sig messages ⟨[], []⟩, ?_⟩
  simp only [filterToolResults]
  split_ifs with h
  · rcases hfind : messages.reverse.find? (fun m => decide (m.role = some "user")) with _ | u
    · simp only [hfind]
      exact Or.inl trivial
    · simp only [hfind]
      right
      exact ⟨u, List.mem_reverse.mp (List.mem_of_find?_eq_some hfind),
        by simpa using List.find?_some hfind, rfl⟩
  · exact Or.inl rfl

def sysMsg : Msg := { role := some "system" }

/-- C9 counterexample: on input `[user-with-embedded-result, system]` the
emergency fallback appends the dropped user message after the system
message, so the output `[system, user]` does not preserve the input's
relative order (it is not a sublist of the input). -/
theorem C9_order_counterexample :
    filterToolResults sigMark [userEmbMsg, sysMsg] = [sysMsg, userEmbMsg]
    ∧ ¬ List.Sublist [sysMsg, userEmbMsg] [userEmbMsg, sysMsg] := by
  refine ⟨by decide, fun hsub => ?_⟩
  exact absurd (hsub.eq_of_length rfl) (by decide)

/-- C10 (amended): a **user-role** message carrying a cache-boundary marker
(`cache_control` in a content block) is always kept by the filter. -/
theorem C10_cached_user_kept (sig : String → Bool) (messages : List Msg) (m : Msg)
    (hm : m ∈ messages) (hrole : m.role = some "user") (hcb : isCachedBlock m = true) :
    m ∈ filterToolResults sig messages := by
  have h1 : m ∈ filterPass sig messages :=
    mem_filterPassS_of_user_keep sig hrole (Or.inl hcb) messages ⟨[], []⟩ hm
  simp only [filterToolResults]
  split_ifs with h
  · rcases hfind : messages.reverse.find? (fun m => decide (m.role = some "user")) with _ | u
    · simp only [hfind]
      exact h1
    · simp only [hfind]
      exact List.mem_append_left _ h1
  · exact h1

def cachedUserMsg : Msg :=
  { role := some "user", content := .blocks [.dict none none true] }

theorem C10_cached_user_kept_witness :
    cachedUserMsg ∈ filterToolResults sigMark [cachedUserMsg] :=
  C10_cached_user_kept sigMark [cachedUserMsg] cachedUserMsg
    (by decide) (by decide) (by decide)

def cachedToolMsg : Msg :=
  { role := some "tool", content := .blocks [.dict none none true],
    tool_call_id := some "a1" }

/-- C10 counterexample: a **tool-role** message carrying a cache-boundary
marker is not exempt — with no pending call id it is dropped, so the claim's
"regardless of role" fails on the code. -/
theorem C10_cached_tool_dropped_counterexample :
    isCachedBlock cachedToolMsg = true
    ∧ filterToolResults sigMark [cachedToolMsg] = [] := by
  decide

/-! ## Auto-continue loop (`_auto_continue_generator`, `_check_auto_continue_trigger`)

Chunks from the response processor are dicts with a `type` and a `content`
that is either a JSON string or an already-structured dict.  A JSON-string
content is embedded by its parse result (`none` when `json.loads` raises
`JSONDecodeError`).  A status body carries the two fields the trigger
reads: `finish_reason` and the truthiness of `tools_executed`. -/

structure StatusBody where
  finish_reason : Option String := none
  tools_executed : Bool := false
deriving DecidableEq

inductive ChunkContent where
  | jsonStr (body : Option StatusBody)
  | dict (body : StatusBody)
deriving DecidableEq

structure Chunk where
  type : Option String := none
  content : Option ChunkContent := none
deriving DecidableEq

/-- `auto_continue_state`: the `count` and `active` fields (the accumulated
content lives with the response processor and is irrelevant here). -/
structure AutoState where
  count : Nat
  active : Bool
deriving DecidableEq

/-- The body used by `_check_auto_continue_trigger` (line 1066): a string
content is `json.loads`-parsed (an unparseable one raises, caught as no
trigger), any other content is used as a dict directly, and a missing
content defaults to the empty dict. -/
def triggerBody (c : Chunk) : Option StatusBody :=
  match c.content with
  | none => some {}
  | some (.jsonStr b) => b
  | some (.dict b) => some b

/-- `_check_auto_continue_trigger` (lines 1059-1088), returning the updated
state and the `should_continue` result. -/
def checkAutoContinueTrigger (c : Chunk) (st : AutoState) (maxC : Nat) :
    AutoState × Bool :=
  if c.type = some "status" then
    match triggerBody c with
    | none => (st, false)
    | some b =>
      if b.finish_reason = some "tool_calls" ∨ b.tools_executed = true then
        if 0 < maxC then (⟨st.count + 1, true⟩, true) else (st, false)
      else if b.finish_reason = some "length" then
        (⟨st.count + 1, true⟩, true)
      else if b.finish_reason = some "xml_tool_limit_reached" then
        (⟨st.count, false⟩, false)
      else (st, false)
  else (st, false)

/-- The suppression test of lines 1023-1030: `json.loads` of the chunk's
content succeeds only for string content (a dict raises `TypeError`, which
is caught and forwards the chunk), and the parsed `finish_reason` must be
`'length'`. -/
def suppressAsLength (c : Chunk) : Bool :=
  match c.content with
  | some (.jsonStr (some b)) => decide (b.finish_reason = some "length")
  | some (.jsonStr none) => false
  | some (.dict _) => false
  | none => false

/-- Whether a chunk makes `_check_auto_continue_trigger` return `True`;
this depends only on the chunk and the configured maximum, not on the
current state. -/
def chunkFires (maxC : Nat) (c : Chunk) : Bool :=
  if c.type = some "status" then
    match triggerBody c with
    | none => false
    | some b =>
      if b.finish_reason = some "tool_calls" ∨ b.tools_executed = true then
        decide (0 < maxC)
      else decide (b.finish_reason = some "length")
  else false

/-- Items the generator yields outward: processor chunks, the error dicts
of lines 1005 and 1048, and the synthetic max-limit content chunk of
lines 1054-1057. -/
inductive Emit where
  | chunk (c : Chunk)
  | errorStatus (s : String)
  | systemError (s : String)
  | maxReached (maxC : Nat)
deriving DecidableEq

/-- The chunk-iteration loop of lines 1010-1032 (no cancellation event
set): evaluate the trigger on each chunk, and yield the chunk unless the
trigger fired on a status chunk whose string content parses to
`finish_reason == 'length'`. -/
def processChunks (maxC : Nat) : List Chunk → AutoState → List Emit × AutoState
  | [], st => ([], st)
  | c :: rest, st =>
    let r := checkAutoContinueTrigger c st maxC
    let skip := r.2 && decide (c.type = some "status") && suppressAsLength c
    let tail := processChunks maxC rest r.1
    (if skip then tail.1 else .chunk c :: tail.1, tail.2)

/-- What one `_execute_run` attempt produces, as observed by the generator:
an error dict, an `AnthropicException - Overloaded` exception, any other
exception, a streaming generator of chunks, or a non-iterable result. -/
inductive AttemptOutcome where
  | errorDict (s : String)
  | overload
  | exnOther (s : String)
  | stream (chunks : List Chunk)
  | single (c : Chunk)
deriving DecidableEq

/-- One attempt as recorded in the loop trace: the model identifier it was
invoked with, the continuation count at its start, and its outcome. -/
structure AttemptRec where
  model : String
  count : Nat
  outcome : AttemptOutcome
deriving DecidableEq

/-- Prefix match of one character list against another. -/
def matchesAt : List Char → List Char → Bool
  | [], _ => true
  | _ :: _, [] => false
  | p :: ps, c :: cs => decide (p = c) && matchesAt ps cs

/-- Fuelled character-level engine for Python's `str.replace(pat, '')`:
remove every non-overlapping occurrence of `pat`, left to right.  One unit
of fuel is spent per position, so `fuel = length` always suffices. -/
def removeAllAux (pat : List Char) : Nat → List Char → List Char
  | 0, l => l
  | _ + 1, [] => []
  | fuel + 1, c :: rest =>
    if matchesAt pat (c :: rest) then
      removeAllAux pat fuel ((c :: rest).drop pat.length)
    else
      c :: removeAllAux pat fuel rest

/-- `s.replace(pat, '')` for a non-empty pattern (the source only ever
removes the literal `'-20250514'`). -/
def removeAll (pat s : String) : String :=
  if pat = "" then s
  else String.mk (removeAllAux pat.data s.data.length s.data)

/-- The fallback rewrite of line 1042:
`f"openrouter/{llm_model.replace('-20250514', '')}"`. -/
def fallbackModel (model : String) : String :=
  "openrouter/" ++ removeAll "-20250514" model

structure LoopResult where
  emitted : List Emit
  attempts : List AttemptRec
  final : AutoState
  finalModel : String
deriving DecidableEq

/-- The `while` loop of `_auto_continue_generator` (lines 985-1049) with no
cancellation event, driven by an environment `env` giving each attempt's
outcome from its index and the current model identifier.  `fuel` bounds the
number of loop iterations (the Python loop can iterate forever when every
attempt raises an overload exception); running out of fuel simply stops
with the state reached so far. -/
def autoLoop (env : Nat → String → AttemptOutcome) (maxC : Nat) :
    Nat → AutoState → String → Nat → LoopResult
  | 0, st, model, _ => ⟨[], [], st, model⟩
  | fuel + 1, st, model, idx =>
    if st.active = true ∧ st.count < maxC then
      let st1 : AutoState := ⟨st.count, false⟩
      let att : AttemptRec := ⟨model, st.count, env idx model⟩
      match env idx model with
      | .errorDict s => ⟨[.errorStatus s], [att], st1, model⟩
      | .overload =>
          let r := autoLoop env maxC fuel ⟨st1.count, true⟩ (fallbackModel model) (idx + 1)
          ⟨r.emitted, att :: r.attempts, r.final, r.finalModel⟩
      | .exnOther s => ⟨[.systemError s], [att], st1, model⟩
      | .single c => ⟨[.chunk c], [att], st1, model⟩
      | .stream chunks =>
          let p := processChunks maxC chunks st1
          if p.2.active = true then
            let r := autoLoop env maxC fuel p.2 model (idx + 1)
            ⟨p.1 ++ r.emitted, att :: r.attempts, r.final, r.finalModel⟩
          else
            ⟨p.1, [att], p.2, model⟩
    else ⟨[], [], st, model⟩

/-- `_auto_continue_generator` end to end: the loop followed by the
max-iterations epilogue (lines 1052-1057), which emits one synthetic
content chunk when the loop ended still active at or past the maximum. -/
def runAutoContinue (env : Nat → String → AttemptOutcome) (fuel maxC : Nat)
    (st : AutoState) (model : String) : LoopResult :=
  let r := autoLoop env maxC fuel st model 0
  { r with
    emitted := r.emitted ++
      (if r.final.active = true ∧ maxC ≤ r.final.count then [.maxReached maxC] else []) }

/-- The trigger's `should_continue` result depends only on the chunk and
the maximum, and the count grows by exactly one when it fires. -/
lemma checkAutoContinueTrigger_spec (c : Chunk) (st : AutoState) (maxC : Nat) :
    (checkAutoContinueTrigger c st maxC).2 = chunkFires maxC c
    ∧ (checkAutoContinueTrigger c st maxC).1.count =
        st.count + (if chunkFires maxC c then 1 else 0) := by
  by_cases hty : c.type = some "status"
  · rcases hb : triggerBody c with _ | b
    · simp [checkAutoContinueTrigger, chunkFires, hty, hb]
    · by_cases h1 : b.finish_reason = some "tool_calls" ∨ b.tools_executed = true
      · by_cases hm : 0 < maxC
        · simp [checkAutoContinueTrigger, chunkFires, hty, hb, h1, hm]
        · simp [checkAutoContinueTrigger, chunkFires, hty, hb, h1, hm]
      · push_neg at h1
        obtain ⟨h1a, h1b0⟩ := h1
        have h1b : b.tools_executed = false := by simpa using h1b0
        by_cases h2 : b.finish_reason = some "length"
        · simp [checkAutoContinueTrigger, chunkFires, hty, hb, h1a, h1b, h2]
        · by_cases h3 : b.finish_reason = some "xml_tool_limit_reached"
          · simp [checkAutoContinueTrigger, chunkFires, hty, hb, h1a, h1b, h2, h3]
          · simp [checkAutoContinueTrigger, chunkFires, hty, hb, h1a, h1b, h2, h3]
  · simp [checkAutoContinueTrigger, chunkFires, hty]

/-- Only status chunks can fire the trigger. -/
lemma chunkFires_status {maxC : Nat} {c : Chunk} (h : chunkFires maxC c = true) :
    c.type = some "status" := by
  by_contra hty
  simp [chunkFires, hty] at h

/-- The continuation count after iterating an attempt's chunks is the
starting count plus the number of chunks that fire the trigger. -/
lemma processChunks_count (maxC : Nat) :
    ∀ (chunks : List Chunk) (st : AutoState),
      (processChunks maxC chunks st).2.count =
        st.count + chunks.countP (chunkFires maxC) := by
  intro chunks
  induction chunks with
  | nil => intro st; simp [processChunks]
  | cons c rest ih =>
    intro st
    have hspec := checkAutoContinueTrigger_spec c st maxC
    simp only [processChunks, ih, hspec.2, List.countP_cons]
    by_cases hf : chunkFires maxC c = true
    · simp [hf]
      omega
    · simp only [Bool.not_eq_true] at hf
      simp [hf]

/-- C6 (amended): while iterating one attempt's chunk stream, a chunk is
withheld from the outward stream exactly when the trigger fired on it and
its content is a JSON string whose `finish_reason` is `'length'` — whatever
the trigger's reason, including a `tools_executed` trigger; every other
chunk, in particular a triggering status chunk with any other finish
reason, or one whose content is a structured dict, is forwarded. -/
theorem C6_length_suppression (maxC : Nat) (chunks : List Chunk) (st : AutoState) :
    (processChunks maxC chunks st).1 =
      (chunks.filter fun c => !(chunkFires maxC c && suppressAsLength c)).map Emit.chunk := by
  induction chunks generalizing st with
  | nil => simp [processChunks]
  | cons c rest ih =>
    have hspec := checkAutoContinueTrigger_spec c st maxC
    by_cases hf : chunkFires maxC c = true
    · have hty := chunkFires_status hf
      by_cases hs : suppressAsLength c = true
      · simp [processChunks, hspec.1, hf, hty, hs, ih]
      · simp only [Bool.not_eq_true] at hs
        simp [processChunks, hspec.1, hf, hty, hs, ih]
    · simp only [Bool.not_eq_true] at hf
      simp [processChunks, hspec.1, hf, ih]

/-- The chunk of the C6 counterexample: a status chunk whose JSON string
content signals both `tools_executed` and `finish_reason == 'length'`. -/
def toolsLenChunk : Chunk :=
  { type := some "status", content := some (.jsonStr (some ⟨some "length", true⟩)) }

/-- C6 counterexample: this chunk triggers continuation through the
tools-executed branch (the count is incremented), yet it is withheld from
the outward stream because its finish reason is `'length'` — contradicting
the claim that a tool-execution trigger chunk is always forwarded. -/
theorem C6_counterexample :
    chunkFires 5 toolsLenChunk = true
    ∧ toolsLenChunk.content = some (.jsonStr (some ⟨some "length", true⟩))
    ∧ (processChunks 5 [toolsLenChunk] ⟨0, true⟩).1 = []
    ∧ (processChunks 5 [toolsLenChunk] ⟨0, true⟩).2 = ⟨1, true⟩ := by
  decide

/-- C7 (amended): a status chunk whose parsed body reports
`finish_reason == 'xml_tool_limit_reached'` forces the continuation state
inactive and does not fire — provided its `tools_executed` flag is unset;
with the flag set the tool branch takes precedence (see the
counterexample). -/
theorem C7_xml_limit_forces_inactive (c : Chunk) (st : AutoState) (maxC : Nat)
    (b : StatusBody) (hty : c.type = some "status") (hb : triggerBody c = some b)
    (hfr : b.finish_reason = some "xml_tool_limit_reached")
    (hte : b.tools_executed = false) :
    checkAutoContinueTrigger c st maxC = (⟨st.count, false⟩, false) := by
  simp [checkAutoContinueTrigger, hty, hb, hfr, hte]

def xmlChunk : Chunk :=
  { type := some "status",
    content := some (.jsonStr (some ⟨some "xml_tool_limit_reached", false⟩)) }

theorem C7_xml_limit_forces_inactive_witness :
    checkAutoContinueTrigger xmlChunk ⟨2, true⟩ 5 = (⟨2, false⟩, false) :=
  C7_xml_limit_forces_inactive xmlChunk ⟨2, true⟩ 5
    ⟨some "xml_tool_limit_reached", false⟩ rfl rfl rfl rfl

def xmlToolsChunk : Chunk :=
  { type := some "status",
    content := some (.jsonStr (some ⟨some "xml_tool_limit_reached", true⟩)) }

/-- C7 counterexample: a chunk carrying both the XML-limit finish reason
and the tools-executed flag does not stop the loop — the tools branch wins:
the state stays active, the count is incremented and the trigger fires,
contradicting the claimed override. -/
theorem C7_counterexample :
    checkAutoContinueTrigger xmlToolsChunk ⟨0, true⟩ 5 = (⟨1, true⟩, true) := by
  decide

/-- The loop never decreases the continuation count. -/
lemma autoLoop_final_count_mono (env : Nat → String → AttemptOutcome) (maxC : Nat) :
    ∀ (fuel : Nat) (st : AutoState) (model : String) (idx : Nat),
      st.count ≤ (autoLoop env maxC fuel st model idx).final.count := by
  intro fuel
  induction fuel with
  | zero => intro st model idx; simp [autoLoop]
  | succ n ih =>
    intro st model idx
    by_cases hcond : st.active = true ∧ st.count < maxC
    · rcases hout : env idx model with s | _ | s | cs | c
      · simp [autoLoop, hcond, hout]
      · simpa [autoLoop, hcond, hout] using ih ⟨st.count, true⟩ (fallbackModel model) (idx + 1)
      · simp [autoLoop, hcond, hout]
      · have hcnt := processChunks_count maxC cs ⟨st.count, false⟩
        simp only [AutoState.count] at hcnt
        by_cases hact : (processChunks maxC cs ⟨st.count, false⟩).2.active = true
        · have h2 := ih (processChunks maxC cs ⟨st.count, false⟩).2 model (idx + 1)
          simp only [autoLoop, hcond, hout, hact, and_self, if_true]
          omega
        · simp only [Bool.not_eq_true] at hact
          simp [autoLoop, hcond, hout, hact]
          omega
      · simp [autoLoop, hcond, hout]
    · simp [autoLoop, hcond]

/-- When every streamed attempt carries at most one trigger-firing chunk,
the loop keeps the count at or below the configured maximum. -/
lemma autoLoop_final_count_le (env : Nat → String → AttemptOutcome) (maxC : Nat)
    (henv : ∀ i m cs, env i m = AttemptOutcome.stream cs →
      cs.countP (chunkFires maxC) ≤ 1) :
    ∀ (fuel : Nat) (st : AutoState) (model : String) (idx : Nat),
      st.count ≤ maxC → (autoLoop env maxC fuel st model idx).final.count ≤ maxC := by
  intro fuel
  induction fuel with
  | zero => intro st model idx hle; simpa [autoLoop] using hle
  | succ n ih =>
    intro st model idx hle
    by_cases hcond : st.active = true ∧ st.count < maxC
    · rcases hout : env idx model with s | _ | s | cs | c
      · simpa [autoLoop, hcond, hout] using hle
      · simpa [autoLoop, hcond, hout] using
          ih ⟨st.count, true⟩ (fallbackModel model) (idx + 1) hle
      · simpa [autoLoop, hcond, hout] using hle
      · have hcnt := processChunks_count maxC cs ⟨st.count, false⟩
        simp only [AutoState.count] at hcnt
        have hP := henv idx model cs hout
        have hlt := hcond.2
        by_cases hact : (processChunks maxC cs ⟨st.count, false⟩).2.active = true
        · have hle2 : (processChunks maxC cs ⟨st.count, false⟩).2.count ≤ maxC := by omega
          simpa [autoLoop, hcond, hout, hact] using
            ih (processChunks maxC cs ⟨st.count, false⟩).2 model (idx + 1) hle2
        · simp only [Bool.not_eq_true] at hact
          simp [autoLoop, hcond, hout, hact]
          omega
      · simpa [autoLoop, hcond, hout] using hle
    · simpa [autoLoop, hcond] using hle

/-- C3 (amended): within one invocation the continuation count starts at 0
and never decreases — each trigger evaluation adds at most one — and it
never exceeds the configured maximum **provided** each attempt's chunk
stream contains at most one trigger-firing chunk; a stream with several
triggering status chunks can push the count past the maximum (see the
counterexample). -/
theorem C3_count_monotone_and_bounded (env : Nat → String → AttemptOutcome)
    (maxC : Nat) :
    (∀ (c : Chunk) (st : AutoState),
      st.count ≤ (checkAutoContinueTrigger c st maxC).1.count)
    ∧ (∀ (fuel : Nat) (st : AutoState) (model : String) (idx : Nat),
        st.count ≤ (autoLoop env maxC fuel st model idx).final.count)
    ∧ ((∀ i m cs, env i m = AttemptOutcome.stream cs →
          cs.countP (chunkFires maxC) ≤ 1) →
        ∀ (fuel : Nat) (model : String),
          (runAutoContinue env fuel maxC ⟨0, true⟩ model).final.count ≤ maxC) := by
  refine ⟨?_, autoLoop_final_count_mono env maxC, ?_⟩
  · intro c st
    have hspec := (checkAutoContinueTrigger_spec c st maxC).2
    rw [hspec]
    by_cases hf : chunkFires maxC c = true <;> simp [hf]
  · intro henv fuel model
    simpa [runAutoContinue] using
      autoLoop_final_count_le env maxC henv fuel ⟨0, true⟩ model 0 (Nat.zero_le maxC)

def lenChunk : Chunk :=
  { type := some "status", content := some (.jsonStr (some ⟨some "length", false⟩)) }

def c3env : Nat → String → AttemptOutcome := fun _ _ => .stream [lenChunk, lenChunk]

/-- C3 counterexample: with maximum 1, a single attempt whose stream holds
two pure length-limit status chunks runs the trigger twice, ending with
continuation count 2 — the count exceeds the configured maximum. -/
theorem C3_counterexample :
    1 < (runAutoContinue c3env 2 1 ⟨0, true⟩ "m").final.count := by
  decide

theorem C3_count_monotone_and_bounded_witness :
    (0 : Nat) ≤ (checkAutoContinueTrigger lenChunk ⟨0, true⟩ 2).1.count
    ∧ (runAutoContinue (fun _ _ => AttemptOutcome.errorDict "x") 3 2 ⟨0, true⟩
        "m").final.count ≤ 2 :=
  ⟨(C3_count_monotone_and_bounded (fun _ _ => AttemptOutcome.errorDict "x") 2).1
      lenChunk ⟨0, true⟩,
    (C3_count_monotone_and_bounded (fun _ _ => AttemptOutcome.errorDict "x") 2).2.2
      (fun _ _ _ h => AttemptOutcome.noConfusion h) 3 "m"⟩

/-- Either the loop records no attempt, or the first recorded attempt ran
with the entry model and the entry count. -/
lemma autoLoop_attempts_shape (env : Nat → String → AttemptOutcome) (maxC : Nat)
    (fuel : Nat) (st : AutoState) (model : String) (idx : Nat) :
    (autoLoop env maxC fuel st model idx).attempts = []
    ∨ ∃ tail, (autoLoop env maxC fuel st model idx).attempts =
        ⟨model, st.count, env idx model⟩ :: tail := by
  cases fuel with
  | zero => exact Or.inl (by simp [autoLoop])
  | succ n =>
    by_cases hcond : st.active = true ∧ st.count < maxC
    · rcases hout : env idx model with s | _ | s | cs | c
      · exact Or.inr ⟨[], by simp [autoLoop, hcond, hout]⟩
      · exact Or.inr
          ⟨(autoLoop env maxC n ⟨st.count, true⟩ (fallbackModel model) (idx + 1)).attempts,
            by simp [autoLoop, hcond, hout]⟩
      · exact Or.inr ⟨[], by simp [autoLoop, hcond, hout]⟩
      · by_cases hact : (processChunks maxC cs ⟨st.count, false⟩).2.active = true
        · exact Or.inr
            ⟨(autoLoop env maxC n (processChunks maxC cs ⟨st.count, false⟩).2 model
                (idx + 1)).attempts,
              by simp [autoLoop, hcond, hout, hact]⟩
        · exact Or.inr ⟨[], by
            simp only [Bool.not_eq_true] at hact
            simp [autoLoop, hcond, hout, hact]⟩
      · exact Or.inr ⟨[], by simp [autoLoop, hcond, hout]⟩
    · exact Or.inl (by simp [autoLoop, hcond])

/-- C8 (amended): whenever an attempt raises the provider-overload
exception, the next recorded attempt of the same invocation runs with the
model identifier rewritten to `openrouter/<model with every '-20250514'
occurrence removed>`, and the continuation count is not incremented.  The
rewrite happens once per overload signal — nothing limits it to once per
invocation (see the counterexample). -/
theorem C8_overload_rewrites_without_count (env : Nat → String → AttemptOutcome)
    (maxC : Nat) :
    ∀ (fuel : Nat) (st : AutoState) (model : String) (idx i : Nat) (a b : AttemptRec),
      (autoLoop env maxC fuel st model idx).attempts.get? i = some a →
      (autoLoop env maxC fuel st model idx).attempts.get? (i + 1) = some b →
      a.outcome = AttemptOutcome.overload →
      b.model = fallbackModel a.model ∧ b.count = a.count := by
  intro fuel
  induction fuel with
  | zero =>
    intro st model idx i a b ha hb hov
    simp [autoLoop] at ha
  | succ n ih =>
    intro st model idx i a b ha hb hov
    by_cases hcond : st.active = true ∧ st.count < maxC
    · rcases hout : env idx model with s | _ | s | cs | c
      · have hatt : (autoLoop env maxC (n + 1) st model idx).attempts =
            [⟨model, st.count, AttemptOutcome.errorDict s⟩] := by
          simp [autoLoop, hcond, hout]
        rw [hatt, List.get?_cons_succ, List.get?_nil] at hb
        exact absurd hb (by simp)
      · have hatt : (autoLoop env maxC (n + 1) st model idx).attempts =
            ⟨model, st.count, AttemptOutcome.overload⟩ ::
              (autoLoop env maxC n ⟨st.count, true⟩ (fallbackModel model)
                (idx + 1)).attempts := by
          simp [autoLoop, hcond, hout]
        rw [hatt] at ha hb
        cases i with
        | zero =>
          rw [List.get?_cons_zero] at ha
          obtain rfl : (⟨model, st.count, AttemptOutcome.overload⟩ : AttemptRec) = a :=
            Option.some.inj ha
          rw [List.get?_cons_succ] at hb
          rcases autoLoop_attempts_shape env maxC n ⟨st.count, true⟩
              (fallbackModel model) (idx + 1) with hnil | ⟨tail, htail⟩
          · rw [hnil, List.get?_nil] at hb
            exact absurd hb (by simp)
          · rw [htail, List.get?_cons_zero] at hb
            obtain rfl : (⟨fallbackModel model, st.count, _⟩ : AttemptRec) = b :=
              Option.some.inj hb
            exact ⟨rfl, rfl⟩
        | succ j =>
          rw [List.get?_cons_succ] at ha hb
          exact ih ⟨st.count, true⟩ (fallbackModel model) (idx + 1) j a b ha hb hov
      · have hatt : (autoLoop env maxC (n + 1) st model idx).attempts =
            [⟨model, st.count, AttemptOutcome.exnOther s⟩] := by
          simp [autoLoop, hcond, hout]
        rw [hatt, List.get?_cons_succ, List.get?_nil] at hb
        exact absurd hb (by simp)
      · by_cases hact : (processChunks maxC cs ⟨st.count, false⟩).2.active = true
        · have hatt : (autoLoop env maxC (n + 1) st model idx).attempts =
              ⟨model, st.count, AttemptOutcome.stream cs⟩ ::
                (autoLoop env maxC n (processChunks maxC cs ⟨st.count, false⟩).2 model
                  (idx + 1)).attempts := by
            simp [autoLoop, hcond, hout, hact]
          rw [hatt] at ha hb
          cases i with
          | zero =>
            rw [List.get?_cons_zero] at ha
            obtain rfl : (⟨model, st.count, AttemptOutcome.stream cs⟩ : AttemptRec) = a :=
              Option.some.inj ha
            exact absurd hov (by simp)
          | succ j =>
            rw [List.get?_cons_succ] at ha hb
            exact ih (processChunks maxC cs ⟨st.count, false⟩).2 model (idx + 1) j a b
              ha hb hov
        · have hatt : (autoLoop env maxC (n + 1) st model idx).attempts =
              [⟨model, st.count, AttemptOutcome.stream cs⟩] := by
            simp only [Bool.not_eq_true] at hact
            simp [autoLoop, hcond, hout, hact]
          rw [hatt, List.get?_cons_succ, List.get?_nil] at hb
          exact absurd hb (by simp)
      · have hatt : (autoLoop env maxC (n + 1) st model idx).attempts =
            [⟨model, st.count, AttemptOutcome.single c⟩] := by
          simp [autoLoop, hcond, hout]
        rw [hatt, List.get?_cons_succ, List.get?_nil] at hb
        exact absurd hb (by simp)
    · simp [autoLoop, hcond] at ha

def c8wEnv : Nat → String → AttemptOutcome :=
  fun i _ => if i = 0 then .overload else .errorDict "x"

theorem C8_overload_rewrites_without_count_witness :
    (AttemptRec.model ⟨"openrouter/claude-sonnet-4", 0, .errorDict "x"⟩ =
        fallbackModel (AttemptRec.model ⟨"claude-sonnet-4-20250514", 0, .overload⟩))
    ∧ (AttemptRec.count ⟨"openrouter/claude-sonnet-4", 0, .errorDict "x"⟩ =
        AttemptRec.count ⟨"claude-sonnet-4-20250514", 0, .overload⟩) :=
  C8_overload_rewrites_without_count c8wEnv 5 3 ⟨0, true⟩ "claude-sonnet-4-20250514" 0 0
    ⟨"claude-sonnet-4-20250514", 0, .overload⟩
    ⟨"openrouter/claude-sonnet-4", 0, .errorDict "x"⟩
    (by decide) (by decide) (by decide)

def c8env2 : Nat → String → AttemptOutcome :=
  fun i _ => if i ≤ 1 then .overload else .errorDict "x"

/-- C8 counterexample: two consecutive overload signals in one invocation
produce two fallback rewrites — the claim's "exactly one automatic fallback
per run_thread invocation" fails: the model is rewritten again, to
`openrouter/openrouter/...`. -/
theorem C8_counterexample :
    ((runAutoContinue c8env2 3 5 ⟨0, true⟩ "claude-sonnet-4-20250514").attempts.map
        AttemptRec.model) =
      ["claude-sonnet-4-20250514", "openrouter/claude-sonnet-4",
        "openrouter/openrouter/claude-sonnet-4"] := by
  decide

/-! ## Run pipeline (`_execute_run`, lines 567-966)

External collaborators (store, tokenizer, compressor, cache annotator,
gateway) are pipeline parameters collected in `ExecEnv`; the pipeline's
own control flow — three filter passes, the token-budget fast path, the
compression decision, the system-prompt split around the third pass, and
the empty-payload guard — is embedded from the source.  Both feature
flags of lines 583-584 are the constants `True`. -/

/-- `normalize_model_name` (lines 621-623):
`model.split('/')[-1] if '/' in model else model`. -/
def normalizeModelName (m : String) : String :=
  String.mk (m.data.foldl (fun acc c => if c = '/' then [] else acc ++ [c]) [])

/-- The threshold of lines 675-684, identical to the context manager's:
`int(context_window * 0.84)` in the last branch is exact rational floor
(the float product never crosses an integer for windows below 100 000). -/
def compressionThreshold (cw : Nat) : Nat :=
  if 1000000 ≤ cw then cw - 300000
  else if 400000 ≤ cw then cw - 64000
  else if 200000 ≤ cw then cw - 32000
  else if 100000 ≤ cw then cw - 16000
  else 84 * cw / 100

/-- The stored `llm_response_end` row the fast path reads: the model name
it recorded, whether its `usage` dict is non-empty (Python truthiness), and
`usage['total_tokens']` (`get` default 0). -/
structure LastUsage where
  storedModel : String
  usagePresent : Bool
  totalTokens : Nat
deriving DecidableEq

/-- The gateway call's visible outcome: an `LLMError` raised, an error
dict returned, or a live response (which may or may not support async
iteration). -/
inductive LLMResp where
  | raises (s : String)
  | errorResp (s : String)
  | ok (supportsIter : Bool)
deriving DecidableEq

structure ExecEnv where
  lastUsage : Option LastUsage
  fastPathRaises : Bool
  latestUserMsgDb : Option String
  tokenCount : String → Nat
  contextWindow : Nat
  storedMessages : List Msg
  compress : List Msg → Option Nat → List Msg
  cacheNeedsRebuild : Bool
  annotate : Msg → List Msg → Bool → List Msg
  validate : List Msg → List Msg
  sig : String → Bool
  systemPrompt : Msg
  llm : List Msg → LLMResp

structure RunArgs where
  llmModel : String
  latestUserContent : Option String
  count : Nat
  accumulated : String
  stream : Bool

/-- The first-turn fallback of lines 650-667: query the latest stored user
message; no row makes `.single()` raise (aborting the fast path), an empty
content contributes zero tokens. -/
def fastPathDbTokens (env : ExecEnv) : Option Nat :=
  match env.latestUserMsgDb with
  | none => none
  | some c => some (if c ≠ "" then env.tokenCount c else 0)

/-- `new_msg_tokens` (lines 636-667): zero on an auto-continue turn;
otherwise the tokenized passed-in content when truthy, else the database
fallback.  `none` means the computation raised. -/
def fastPathNewTokens (env : ExecEnv) (args : RunArgs) : Option Nat :=
  if 0 < args.count then some 0
  else
    match args.latestUserContent with
    | some s => if s ≠ "" then some (env.tokenCount s) else fastPathDbTokens env
    | none => fastPathDbTokens env

/-- The fast path of lines 595-700, producing
`(skip_fetch, need_compression, estimated_total_tokens)`.  Any raise is
swallowed into the all-false default. -/
def fastPathCheck (env : ExecEnv) (args : RunArgs) : Bool × Bool × Option Nat :=
  if env.fastPathRaises = true then (false, false, none)
  else
    match env.lastUsage with
    | none => (false, false, none)
    | some lu =>
      if lu.usagePresent = true ∧
          normalizeModelName lu.storedModel = normalizeModelName args.llmModel then
        match fastPathNewTokens env args with
        | none => (false, false, none)
        | some nt =>
          if lu.totalTokens + nt < compressionThreshold env.contextWindow then
            (true, false, some (lu.totalTokens + nt))
          else (false, true, some (lu.totalTokens + nt))
      else (false, false, none)

/-- Messages entering the compression stage: stored messages after filter
pass 1, plus the accumulated partial assistant content on auto-continue
turns (lines 704-719). -/
def preCompressionMessages (env : ExecEnv) (args : RunArgs) : List Msg :=
  let messages1 := filterToolResults env.sig env.storedMessages
  if 0 < args.count ∧ args.accumulated ≠ "" then
    messages1 ++ [{ role := some "assistant", content := .str args.accumulated }]
  else messages1

/-- The compression decision of lines 721-748: fast-path skip bypasses the
compressor; forced compression passes the fast-path estimate through as
`actual_total_tokens`; the default path runs the standard check with
`actual_total_tokens=None`.  The second component records the compressor
invocation (`none` = not invoked). -/
def compressionStage (env : ExecEnv) (args : RunArgs) : List Msg × Option (Option Nat) :=
  if (fastPathCheck env args).1 = true then (preCompressionMessages env args, none)
  else if (fastPathCheck env args).2.1 = true then
    (env.compress (preCompressionMessages env args) (fastPathCheck env args).2.2,
      some (fastPathCheck env args).2.2)
  else (env.compress (preCompressionMessages env args) none, some none)

/-- Filter pass 2, cache annotation and validation, and filter pass 3 with
the system-prompt split of lines 796-819 (the last system message seen is
kept, non-system messages are filtered, and the system prompt is put
back in front). -/
def preparedPayload (env : ExecEnv) (args : RunArgs) : List Msg :=
  let messages4 := filterToolResults env.sig (compressionStage env args).1
  let prepared1 := env.validate (env.annotate env.systemPrompt messages4 env.cacheNeedsRebuild)
  let systemMsg := prepared1.foldl
    (fun acc m => if m.role = some "system" then some m else acc) (none : Option Msg)
  let filtered3 := filterToolResults env.sig
    (prepared1.filter fun m => decide (¬ m.role = some "system"))
  match systemMsg with
  | some sm => sm :: filtered3
  | none => filtered3

inductive RunResult where
  | errorStatus (s : String)
  | processedStream
  | processedBatch
deriving DecidableEq

/-- The guard's error message (line 864). -/
def emptyPayloadError : String :=
  "No valid messages to send to LLM after filtering. This may indicate all messages were filtered out incorrectly."

/-- A run's observable trace: the fast-path verdict, the compressor
invocation, the payload handed to the gateway (`none` when the guard
returned before dispatch), and the structured result. -/
structure ExecTrace where
  skipFetch : Bool
  needCompression : Bool
  estimatedTokens : Option Nat
  compressorCalledWith : Option (Option Nat)
  gatewayPayload : Option (List Msg)
  result : RunResult
deriving DecidableEq

/-- `_execute_run` end to end: pipeline, empty-payload guard (lines
857-864), gateway call and response dispatch (lines 929-961). -/
def executeRun (env : ExecEnv) (args : RunArgs) : ExecTrace :=
  let fp := fastPathCheck env args
  let prepared := preparedPayload env args
  if (prepared.filter fun m => decide (¬ m.role = some "system")).length = 0 then
    ⟨fp.1, fp.2.1, fp.2.2, (compressionStage env args).2, none,
      .errorStatus emptyPayloadError⟩
  else
    ⟨fp.1, fp.2.1, fp.2.2, (compressionStage env args).2, some prepared,
      match env.llm prepared with
      | .raises s => .errorStatus s
      | .errorResp s => .errorStatus s
      | .ok supportsIter =>
          if args.stream = true ∧ supportsIter = true then .processedStream
          else .processedBatch⟩

/-- C4: when zero non-system messages remain after the third filter pass,
the run returns the structured error status without a gateway payload; and
every payload actually handed to the gateway contains at least one
non-system message. -/
theorem C4_empty_payload_guard (env : ExecEnv) (args : RunArgs) :
    ((executeRun env args).gatewayPayload = none →
      (executeRun env args).result = RunResult.errorStatus emptyPayloadError)
    ∧ (∀ p, (executeRun env args).gatewayPayload = some p →
        0 < (p.filter fun m => decide (¬ m.role = some "system")).length) := by
  simp only [executeRun]
  split_ifs with h
  · exact ⟨fun _ => rfl, fun p hp => absurd hp (by simp)⟩
  · refine ⟨fun hnone => absurd hnone (by simp), fun p hp => ?_⟩
    obtain rfl : preparedPayload env args = p := Option.some.inj (by simpa using hp)
    omega

def userHiW : Msg := { role := some "user", content := .str "hi" }

def sysPromptW : Msg := { role := some "system" }

def envGateW : ExecEnv :=
  { lastUsage := none, fastPathRaises := false, latestUserMsgDb := none,
    tokenCount := fun _ => 0, contextWindow := 200000,
    storedMessages := [userHiW],
    compress := fun ms _ => ms, cacheNeedsRebuild := false,
    annotate := fun sp ms _ => sp :: ms, validate := fun ms => ms,
    sig := fun _ => false, systemPrompt := sysPromptW,
    llm := fun _ => .ok true }

def envEmptyW : ExecEnv :=
  { envGateW with storedMessages := [], annotate := fun _ ms _ => ms }

def argsFirstTurn : RunArgs :=
  { llmModel := "anthropic/claude-sonnet-4", latestUserContent := some "hi",
    count := 0, accumulated := "", stream := true }

theorem C4_empty_payload_guard_witness :
    (executeRun envEmptyW argsFirstTurn).result = RunResult.errorStatus emptyPayloadError
    ∧ 0 < ([sysPromptW, userHiW].filter fun m =>
        decide (¬ m.role = some "system")).length :=
  ⟨(C4_empty_payload_guard envEmptyW argsFirstTurn).1 (by decide),
    (C4_empty_payload_guard envGateW argsFirstTurn).2 [sysPromptW, userHiW] (by decide)⟩

/-- When the fast path produced an estimate, its verdict is exactly the
threshold comparison. -/
lemma fastPathCheck_estimate_cases (env : ExecEnv) (args : RunArgs)
    (skipR needR : Bool) (est : Nat)
    (hfp : fastPathCheck env args = (skipR, needR, some est)) :
    (est < compressionThreshold env.contextWindow ∧ skipR = true ∧ needR = false)
    ∨ (¬ est < compressionThreshold env.contextWindow ∧ skipR = false ∧ needR = true) := by
  unfold fastPathCheck at hfp
  by_cases h0 : env.fastPathRaises = true
  · rw [if_pos h0] at hfp
    simp at hfp
  · rw [if_neg h0] at hfp
    rcases hlu : env.lastUsage with _ | lu <;> rw [hlu] at hfp
    · simp at hfp
    · dsimp only at hfp
      by_cases h2 : lu.usagePresent = true ∧
          normalizeModelName lu.storedModel = normalizeModelName args.llmModel
      · rw [if_pos h2] at hfp
        rcases hnt : fastPathNewTokens env args with _ | nt <;> rw [hnt] at hfp
        · simp at hfp
        · dsimp only at hfp
          by_cases h3 : lu.totalTokens + nt < compressionThreshold env.contextWindow
          · rw [if_pos h3] at hfp
            injection hfp with h4 hrest
            injection hrest with h5 h6
            obtain rfl : lu.totalTokens + nt = est := Option.some.inj h6
            exact Or.inl ⟨h3, h4.symm, h5.symm⟩
          · rw [if_neg h3] at hfp
            injection hfp with h4 hrest
            injection hrest with h5 h6
            obtain rfl : lu.totalTokens + nt = est := Option.some.inj h6
            exact Or.inr ⟨h3, h4.symm, h5.symm⟩
      · rw [if_neg h2] at hfp
        simp at hfp

lemma executeRun_compressorCall (env : ExecEnv) (args : RunArgs) :
    (executeRun env args).compressorCalledWith = (compressionStage env args).2 := by
  simp only [executeRun]
  split_ifs <;> rfl

lemma compressionStage_skip (env : ExecEnv) (args : RunArgs)
    (h : (fastPathCheck env args).1 = true) :
    (compressionStage env args).2 = none := by
  simp [compressionStage, h]

lemma compressionStage_forced (env : ExecEnv) (args : RunArgs)
    (h1 : (fastPathCheck env args).1 = false)
    (h2 : (fastPathCheck env args).2.1 = true) :
    (compressionStage env args).2 = some (fastPathCheck env args).2.2 := by
  simp [compressionStage, h1, h2]

/-- C5: when the fast path yields an estimate, the compression threshold
equals the context window minus the size-selected reserve (300 000 for
windows of at least a million tokens; 64 000, 32 000 and 16 000 down the
tiers; below 100 000 the reserve is 16 % of the window, rounded up by the
floor in `int(window * 0.84)`), an estimate under the threshold leaves the
Compressor uninvoked that turn, and an estimate at or over it forces
compression with the estimate passed through unchanged. -/
theorem C5_fast_path_threshold_and_dispatch (env : ExecEnv) (args : RunArgs)
    (skipR needR : Bool) (est : Nat)
    (hfp : fastPathCheck env args = (skipR, needR, some est)) :
    (1000000 ≤ env.contextWindow →
      compressionThreshold env.contextWindow = env.contextWindow - 300000)
    ∧ (400000 ≤ env.contextWindow → env.contextWindow < 1000000 →
      compressionThreshold env.contextWindow = env.contextWindow - 64000)
    ∧ (200000 ≤ env.contextWindow → env.contextWindow < 400000 →
      compressionThreshold env.contextWindow = env.contextWindow - 32000)
    ∧ (100000 ≤ env.contextWindow → env.contextWindow < 200000 →
      compressionThreshold env.contextWindow = env.contextWindow - 16000)
    ∧ (env.contextWindow < 100000 →
      compressionThreshold env.contextWindow =
        env.contextWindow - (16 * env.contextWindow + 99) / 100)
    ∧ (est < compressionThreshold env.contextWindow →
        (executeRun env args).compressorCalledWith = none)
    ∧ (compressionThreshold env.contextWindow ≤ est →
        (executeRun env args).compressorCalledWith = some (some est)) := by
  have hcases := fastPathCheck_estimate_cases env args skipR needR est hfp
  refine ⟨?_, ?_, ?_, ?_, ?_, ?_, ?_⟩
  · intro h1
    simp only [compressionThreshold]
    rw [if_pos h1]
  · intro h1 h2
    simp only [compressionThreshold]
    rw [if_neg (by omega), if_pos h1]
  · intro h1 h2
    simp only [compressionThreshold]
    rw [if_neg (by omega), if_neg (by omega), if_pos h1]
  · intro h1 h2
    simp only [compressionThreshold]
    rw [if_neg (by omega), if_neg (by omega), if_neg (by omega), if_pos h1]
  · intro h1
    simp only [compressionThreshold]
    rw [if_neg (by omega), if_neg (by omega), if_neg (by omega), if_neg (by omega)]
    omega
  · intro hlt
    rcases hcases with ⟨_, hs, _⟩ | ⟨hnlt, _, _⟩
    · rw [executeRun_compressorCall]
      exact compressionStage_skip env args (by rw [hfp]; exact hs)
    · exact absurd hlt hnlt
  · intro hge
    rcases hcases with ⟨hlt, _, _⟩ | ⟨_, hs, hn⟩
    · omega
    · rw [executeRun_compressorCall,
        compressionStage_forced env args (by rw [hfp]; exact hs) (by rw [hfp]; exact hn),
        hfp]

def envFastW : ExecEnv :=
  { envGateW with
      lastUsage := some ⟨"claude-sonnet-4", true, 190000⟩,
      tokenCount := fun _ => 50 }

theorem C5_fast_path_threshold_and_dispatch_witness :
    compressionThreshold 200000 = 200000 - 32000
    ∧ (executeRun envFastW argsFirstTurn).compressorCalledWith = some (some 190050) :=
  ⟨(C5_fast_path_threshold_and_dispatch envFastW argsFirstTurn false true 190050
      (by decide)).2.2.1 (by decide) (by decide),
    (C5_fast_path_threshold_and_dispatch envFastW argsFirstTurn false true 190050
      (by decide)).2.2.2.2.2.2 (by decide)⟩

end Suna
